import Mathlib

/-
  Shallow embedding of src/clipboard_manager.py (class ClipboardManager).

  Modelling conventions:
  - A clipboard entry is a record with fields content, timestamp, size,
    mirroring the dict built in add_entry.
  - Timestamps are modelled as integer instants (datetime.now() and the
    comparison order of datetime values); timedelta(days=d) is d * 86400
    instants.  isoformat/fromisoformat is an injective external encoding
    and is elided.
  - The in-memory log self.history is a List Entry, oldest first.
  - File contents are modelled as JSON documents (an inductive Json);
    json.dump / json.load of the standard library are the identity on such
    documents, so save_data stores the document and load_data parses it.
  - Python truthiness of an optional int argument (if days: / if limit:)
    is: present and nonzero.
  - Python list slicing lst[-m:] and lst[:k] are pyTakeLast and pySliceTo,
    with the Python corner cases (m = 0 keeps the whole list, negative k
    counts from the end) reproduced.
  - str.lower() is modelled by the ASCII lowering charLower mapped over
    the characters; the substring test q in s is containsL.
  - print-and-return error paths are modelled as explicit outcome values.
-/

namespace Clip

/-- One clipboard history record, as built in ClipboardManager.add_entry:
content, capture timestamp, and the UTF-8 byte size of content. -/
structure Entry where
  content : String
  timestamp : Int
  size : Nat
deriving Repr, DecidableEq

/-- Python slice lst[-m:], as used to trim the history to max_entries.
For m = 0 Python reads lst[0:], the whole list. -/
def pyTakeLast {α : Type} (m : Nat) (l : List α) : List α :=
  if m = 0 then l else l.drop (l.length - m)

/-- Python slice lst[:k], as used by list_entries for the limit.  A
negative k keeps everything but the last |k| elements. -/
def pySliceTo {α : Type} (k : Int) (l : List α) : List α :=
  if 0 ≤ k then l.take k.toNat else l.take (l.length - (-k).toNat)

/-- Truthiness of an optional int argument: if days: in Python is false
for None and for 0. -/
def truthyInt : Option Int → Bool
  | none => false
  | some d => d != 0

/-- The test self.history and self.history[-1].content == content of
add_entry: the log is non-empty and its last entry has this content. -/
def lastIsDup (history : List Entry) (content : String) : Bool :=
  match history.getLast? with
  | some e => e.content == content
  | none => false

/-- Result of add_entry: the new log, the returned boolean, and whether
save_data was called. -/
structure AddResult where
  history : List Entry
  accepted : Bool
  saved : Bool
deriving Repr, DecidableEq

/-- The entry dict built in add_entry at instant now. -/
def mkEntry (now : Int) (content : String) : Entry :=
  ⟨content, now, content.utf8ByteSize⟩

/-- ClipboardManager.add_entry: reject oversize content, reject an exact
repeat of the last entry, otherwise append, trim to the last max_entries
elements when over the cap, and persist. -/
def add_entry (maxSizeBytes maxEntries : Nat) (now : Int)
    (history : List Entry) (content : String) : AddResult :=
  if content.utf8ByteSize > maxSizeBytes then ⟨history, false, false⟩
  else if lastIsDup history content then ⟨history, false, false⟩
  else
    let h1 := history ++ [mkEntry now content]
    let h2 := if h1.length > maxEntries then pyTakeLast maxEntries h1 else h1
    ⟨h2, true, true⟩

/-- Iterated add_entry over a list of contents (each call at instant now),
keeping the resulting log. -/
def addAll (maxSizeBytes maxEntries : Nat) (now : Int) :
    List Entry → List String → List Entry
  | h, [] => h
  | h, x :: xs =>
      addAll maxSizeBytes maxEntries now
        (add_entry maxSizeBytes maxEntries now h x).history xs

/-- Length of one day in timestamp units: timedelta(days=1). -/
def daySec : Int := 86400

/-- The age filter of list_entries and clear: keep entries with
timestamp at least now - timedelta(days=d). -/
def keepRecent (now : Int) (d : Int) (entries : List Entry) : List Entry :=
  entries.filter (fun e => decide (now - daySec * d ≤ e.timestamp))

/-- ClipboardManager.list_entries, up to printing: filter by age when
days is truthy, reverse to newest-first, then slice to limit when limit
is truthy. -/
def list_entries (now : Int) (history : List Entry)
    (limit days : Option Int) : List Entry :=
  let entries := history
  let entries :=
    if truthyInt days then keepRecent now (days.getD 0) entries else entries
  let entries := entries.reverse
  if truthyInt limit then pySliceTo (limit.getD 0) entries else entries

/-- ASCII lowering of one character, the model of str.lower() per
character. -/
def charLower (c : Char) : Char :=
  if 65 ≤ c.toNat ∧ c.toNat ≤ 90 then Char.ofNat (c.toNat + 32) else c

/-- Model of s.lower() as a character list. -/
def lowerChars (s : String) : List Char := s.data.map charLower

/-- q is a leading segment of s (character lists). -/
def startsWithL : List Char → List Char → Bool
  | _, [] => true
  | [], _ :: _ => false
  | a :: s, b :: q => a == b && startsWithL s q

/-- Python substring containment q in s over character lists. -/
def containsL : List Char → List Char → Bool
  | s, q =>
    if startsWithL s q then true
    else
      match s with
      | [] => false
      | _ :: t => containsL t q

/-- The match test of search: lowered query occurs in the lowered
content. -/
def matchesQuery (qLower : List Char) (e : Entry) : Bool :=
  containsL (lowerChars e.content) qLower

/-- The break test of search after appending a match: limit is truthy and
the number of collected matches has reached it. -/
def limitReached (limit : Option Int) (n : Nat) : Bool :=
  match limit with
  | some l => l != 0 && decide (l ≤ (n : Int))
  | none => false

/-- The scan loop of ClipboardManager.search over the reversed log:
collect matches in order, stopping right after the limit-th match. -/
def searchGo (qLower : List Char) (limit : Option Int) :
    Nat → List Entry → List Entry
  | _, [] => []
  | cnt, e :: rest =>
    if matchesQuery qLower e then
      if limitReached limit (cnt + 1) then [e]
      else e :: searchGo qLower limit (cnt + 1) rest
    else searchGo qLower limit cnt rest

/-- ClipboardManager.search, up to printing: case-insensitive substring
scan of the log newest-first with an optional early stop at limit. -/
def search (history : List Entry) (query : String)
    (limit : Option Int) : List Entry :=
  searchGo (lowerChars query) limit 0 history.reverse

/-- Outcome of get_entry: the printed entry, the empty-history report, or
the invalid-index report carrying the top of the valid range 1..N. -/
inductive GetOutcome
  | found (e : Entry)
  | errNoHistory
  | errBadIndex (validMax : Nat)
deriving Repr, DecidableEq

/-- ClipboardManager.get_entry: 1-based index into the reversed
(newest-first) log; out-of-range or empty history is a reported,
non-fatal failure. -/
def get_entry (history : List Entry) (index : Int) : GetOutcome :=
  if history.isEmpty then .errNoHistory
  else
    let entries := history.reverse
    if index < 1 ∨ (entries.length : Int) < index then
      .errBadIndex entries.length
    else
      .found (entries.getD (index - 1).toNat ⟨"", 0, 0⟩)

/-- Result of clear: the new log, the removed count printed on the
age-pruning path (absent on the full-clear path), and whether save_data
ran. -/
structure ClearResult where
  history : List Entry
  removedReport : Option Nat
  saved : Bool
deriving Repr, DecidableEq

/-- ClipboardManager.clear: with truthy days, keep only entries at least
as recent as the cutoff and report the removed count; otherwise clear
everything exactly when the interactive confirmation says yes.  Both
paths end in save_data. -/
def clear (now : Int) (history : List Entry) (days : Option Int)
    (confirm : Bool) : ClearResult :=
  if truthyInt days then
    let newH := keepRecent now (days.getD 0) history
    ⟨newH, some (history.length - newH.length), true⟩
  else if confirm then ⟨[], none, true⟩
  else ⟨history, none, true⟩

/-- The aggregate numbers printed by stats. -/
structure StatsResult where
  total_entries : Nat
  total_size_bytes : Nat
  average_size_bytes : ℚ
deriving Repr, DecidableEq

/-- ClipboardManager.stats, up to printing: none on an empty history
(early return), otherwise the entry count, summed stored sizes, and their
exact quotient. -/
def stats (history : List Entry) : Option StatsResult :=
  if history.isEmpty then none
  else
    let total_entries := history.length
    let total_size := (history.map Entry.size).sum
    some ⟨total_entries, total_size,
      if 0 < total_entries then (total_size : ℚ) / (total_entries : ℚ) else 0⟩

/-- JSON documents, the model of what json.dump writes and json.load
reads back.  Integer instants stand in for the isoformat timestamp
strings. -/
inductive Json
  | jstr (s : String)
  | jint (n : Int)
  | jarr (xs : List Json)
  | jobj (fields : List (String × Json))

/-- The dict written for one entry by save_data via json.dump. -/
def entryToJson (e : Entry) : Json :=
  .jobj [("content", .jstr e.content),
         ("timestamp", .jint e.timestamp),
         ("size", .jint (e.size : Int))]

/-- ClipboardManager.save_data: the document serialized to the history
file. -/
def save_data (history : List Entry) : Json :=
  .jarr (history.map entryToJson)

/-- Reading one loaded record through the field accesses the rest of the
program performs (content, timestamp, size). -/
def jsonToEntry : Json → Option Entry
  | .jobj fields =>
    match fields.lookup "content", fields.lookup "timestamp",
          fields.lookup "size" with
    | some (.jstr c), some (.jint t), some (.jint s) => some ⟨c, t, s.toNat⟩
    | _, _, _ => none
  | _ => none

/-- ClipboardManager.load_data for the history file: an absent file gives
the empty history, a stored document is parsed back into entries; none
models the fatal StorageError on malformed content. -/
def load_data : Option Json → Option (List Entry)
  | none => some []
  | some (.jarr xs) => xs.mapM jsonToEntry
  | some _ => none

/-- Adjacent-duplicate freedom of the log: no two neighbouring entries
share their content. -/
def noAdjDup : List Entry → Bool
  | [] => true
  | [_] => true
  | a :: b :: t => (a.content != b.content) && noAdjDup (b :: t)

/-- Timestamp order between entries, oldest-first. -/
def tsLE (a b : Entry) : Prop := a.timestamp ≤ b.timestamp

/-- Timestamp order between entries, newest-first. -/
def tsGE (a b : Entry) : Prop := b.timestamp ≤ a.timestamp

instance : IsTrans Entry tsLE := ⟨fun _ _ _ h1 h2 => le_trans h1 h2⟩

instance : IsTrans Entry tsGE := ⟨fun _ _ _ h1 h2 => le_trans h2 h1⟩

/-! ### Helper lemmas about the Python slice models -/

theorem pyTakeLast_of_le {α : Type} {m : Nat} {l : List α} (h : l.length ≤ m) :
    pyTakeLast m l = l := by
  unfold pyTakeLast
  have h0 : l.length - m = 0 := by omega
  split <;> simp [h0]

theorem mem_of_mem_pyTakeLast {α : Type} {m : Nat} {l : List α} {a : α}
    (h : a ∈ pyTakeLast m l) : a ∈ l := by
  unfold pyTakeLast at h
  split at h
  · exact h
  · exact List.drop_subset _ _ h

theorem length_pyTakeLast {α : Type} (m : Nat) (l : List α) (hm : m ≠ 0) :
    (pyTakeLast m l).length = min m l.length := by
  unfold pyTakeLast
  simp [hm]
  omega

theorem head?_take_of_pos {α : Type} {l : List α} {n : Nat} (h : 0 < n) :
    (l.take n).head? = l.head? := by
  cases l with
  | nil => simp
  | cons a t =>
    cases n with
    | zero => omega
    | succ m => simp [List.take]

theorem getLast?_drop_of_lt {α : Type} {l : List α} {n : Nat} (h : n < l.length) :
    (l.drop n).getLast? = l.getLast? := by
  rw [← List.head?_reverse, ← List.head?_reverse, List.reverse_drop]
  exact head?_take_of_pos (by omega)

theorem getLast?_pyTakeLast {α : Type} (m : Nat) (l : List α) (h : l ≠ []) :
    (pyTakeLast m l).getLast? = l.getLast? := by
  unfold pyTakeLast
  split
  · rfl
  · next hm =>
      exact getLast?_drop_of_lt (by
        have := List.length_pos.mpr h
        omega)

theorem lastIsDup_eq_false_iff {history : List Entry} {c : String} :
    lastIsDup history c = false ↔ ∀ e ∈ history.getLast?, e.content ≠ c := by
  unfold lastIsDup
  cases history.getLast? with
  | none => simp
  | some e => simp

/-! ### Claim theorems -/

/-- Claim C2: content whose UTF-8 byte length exceeds the configured
maximum is rejected by add_entry: it returns false, performs no
persistence write, and leaves the log unchanged; consequently, when every
stored entry has size within the maximum, this still holds after any
add_entry call. -/
theorem c2_size_rejection (maxSizeBytes maxEntries : Nat) (now : Int)
    (history : List Entry) (content : String) :
    (content.utf8ByteSize > maxSizeBytes →
      (add_entry maxSizeBytes maxEntries now history content).accepted = false ∧
      (add_entry maxSizeBytes maxEntries now history content).saved = false ∧
      (add_entry maxSizeBytes maxEntries now history content).history = history) ∧
    ((∀ e ∈ history, e.size ≤ maxSizeBytes) →
      ∀ e ∈ (add_entry maxSizeBytes maxEntries now history content).history,
        e.size ≤ maxSizeBytes) := by
  constructor
  · intro hgt
    simp [add_entry, hgt]
  · intro hall e he
    unfold add_entry at he
    split at he
    · exact hall e he
    · next hsize =>
        split at he
        · exact hall e he
        · dsimp only at he
          split at he
          · have hmem := mem_of_mem_pyTakeLast he
            rcases List.mem_append.mp hmem with hin | hnew
            · exact hall e hin
            · have : e = mkEntry now content := by simpa using hnew
              subst this
              simpa [mkEntry] using Nat.le_of_not_lt hsize
          · rcases List.mem_append.mp he with hin | hnew
            · exact hall e hin
            · have : e = mkEntry now content := by simpa using hnew
              subst this
              simpa [mkEntry] using Nat.le_of_not_lt hsize

/-- Witness for C2 at concrete inputs: the three-byte string xyz is
rejected with the two-byte cap and the log stays put; an accepted entry
respects the cap. -/
theorem c2_size_rejection_witness :
    ((add_entry 2 10 7 [⟨"a", 1, 1⟩] "xyz").accepted = false ∧
     (add_entry 2 10 7 [⟨"a", 1, 1⟩] "xyz").saved = false ∧
     (add_entry 2 10 7 [⟨"a", 1, 1⟩] "xyz").history = [⟨"a", 1, 1⟩]) ∧
    (mkEntry 7 "new").size ≤ 100 :=
  ⟨(c2_size_rejection 2 10 7 [⟨"a", 1, 1⟩] "xyz").1 (by decide),
   (c2_size_rejection 100 10 7 [] "new").2 (by simp) (mkEntry 7 "new") (by decide)⟩

/-- Claim C9: on a non-empty log, stats reports the entry count, the sum
of the stored sizes, and their exact quotient as the average. -/
theorem c9_stats_arith (history : List Entry) (hne : history ≠ []) :
    stats history = some ⟨history.length, (history.map Entry.size).sum,
      (((history.map Entry.size).sum : Nat) : ℚ) / ((history.length : Nat) : ℚ)⟩ := by
  have h1 : history.isEmpty = false := by
    simpa [List.isEmpty_iff] using hne
  have h2 : 0 < history.length := List.length_pos.mpr hne
  simp [stats, h1, h2]

/-- Witness for C9: sizes 10, 20, 30 give total 60 and average 20. -/
theorem c9_stats_arith_witness :
    stats [⟨"a", 0, 10⟩, ⟨"b", 0, 20⟩, ⟨"c", 0, 30⟩] = some ⟨3, 60, 20⟩ := by
  have h := c9_stats_arith [⟨"a", 0, 10⟩, ⟨"b", 0, 20⟩, ⟨"c", 0, 30⟩] (by decide)
  rw [h]
  norm_num

/-- Claim C10: a zero value for the optional days argument is falsy in
Python, so clear with days = 0 takes the confirmation-gated full-clear
path rather than pruning, and list_entries with days = 0 applies no age
filter. -/
theorem c10_zero_days (now : Int) (history : List Entry) (confirm : Bool)
    (limit : Option Int) :
    clear now history (some 0) confirm = clear now history none confirm ∧
    (clear now history (some 0) confirm).history =
      (if confirm then [] else history) ∧
    (clear now history (some 0) confirm).removedReport = none ∧
    list_entries now history limit (some 0) =
      list_entries now history limit none := by
  refine ⟨rfl, ?_, ?_, rfl⟩ <;> cases confirm <;> rfl

/-- Claim C8: clear with a positive days argument keeps exactly the
entries at least as recent as the cutoff now - days, reports the exact
number removed, and persists. -/
theorem c8_prune_by_age (now : Int) (history : List Entry) (d : Int)
    (confirm : Bool) (hd : 0 < d) :
    (clear now history (some d) confirm).history =
      history.filter (fun e => decide (now - daySec * d ≤ e.timestamp)) ∧
    (∀ e ∈ (clear now history (some d) confirm).history,
      now - daySec * d ≤ e.timestamp) ∧
    (clear now history (some d) confirm).removedReport =
      some (history.filter
        (fun e => decide (e.timestamp < now - daySec * d))).length ∧
    (clear now history (some d) confirm).saved = true := by
  have hd0 : d ≠ 0 := by omega
  have ht : truthyInt (some d) = true := by simp [truthyInt, hd0]
  refine ⟨?_, ?_, ?_, ?_⟩
  · simp [clear, ht, keepRecent]
  · intro e he
    simp [clear, ht, keepRecent, List.mem_filter] at he
    linarith [he.2]
  · have hfun : (fun e : Entry => decide (e.timestamp < now - daySec * d)) =
        (fun e : Entry => !(decide (now - daySec * d ≤ e.timestamp))) := by
      funext e
      by_cases hc : now - daySec * d ≤ e.timestamp
      · simp [hc, not_lt.mpr hc]
      · simp [hc, lt_of_not_le hc]
    have hsplit := List.length_eq_length_filter_add
      (l := history) (fun e : Entry => decide (now - daySec * d ≤ e.timestamp))
    simp only [clear, ht, if_pos, keepRecent, Option.getD_some]
    rw [hfun]
    congr 1
    omega
  · simp [clear, ht]

/-- Witness for C8: with a one-day window, the old entry is removed, the
recent one stays, the removed count is one, and the result is saved. -/
theorem c8_prune_by_age_witness :
    (clear (daySec + 2) [⟨"a", 1, 1⟩, ⟨"x", daySec + 1, 1⟩] (some 1)
        false).history = [⟨"x", daySec + 1, 1⟩] ∧
    (clear (daySec + 2) [⟨"a", 1, 1⟩, ⟨"x", daySec + 1, 1⟩] (some 1)
        false).removedReport = some 1 ∧
    (clear (daySec + 2) [⟨"a", 1, 1⟩, ⟨"x", daySec + 1, 1⟩] (some 1)
        false).saved = true := by
  have h := c8_prune_by_age (daySec + 2) [⟨"a", 1, 1⟩, ⟨"x", daySec + 1, 1⟩]
    1 false (by decide)
  refine ⟨?_, ?_, h.2.2.2⟩
  · rw [h.1]; decide
  · rw [h.2.2.1]; decide

/-- Claim C6: with a log of length N, get_entry maps index 1 to the
newest (last appended) entry and index N to the oldest; any index outside
1..N on a non-empty log is reported as a bad index together with N, and
any index on an empty log is reported as the empty-history failure;
either failure returns no entry and is not fatal. -/
theorem c6_get_index (history : List Entry) (index : Int)
    (hne : history ≠ []) :
    get_entry history 1 = .found (history.getLast hne) ∧
    get_entry history (history.length : Int) = .found (history.head hne) ∧
    ((index < 1 ∨ (history.length : Int) < index) →
      get_entry history index = .errBadIndex history.length) ∧
    (∀ j : Int, get_entry [] j = .errNoHistory) := by
  have hE : history.isEmpty = false := by
    simpa [List.isEmpty_iff] using hne
  have hpos : 0 < history.length := List.length_pos.mpr hne
  refine ⟨?_, ?_, ?_, fun j => rfl⟩
  · unfold get_entry
    simp only [hE, Bool.false_eq_true, if_false]
    rw [if_neg (by simp only [List.length_reverse]; omega)]
    have h0 : ((1 : Int) - 1).toNat = 0 := rfl
    rw [h0, List.getD_eq_getElem?_getD, ← List.head?_eq_getElem?,
      List.head?_reverse, List.getLast?_eq_getLast history hne]
    rfl
  · unfold get_entry
    simp only [hE, Bool.false_eq_true, if_false]
    rw [if_neg (by simp only [List.length_reverse]; omega)]
    have h0 : ((history.length : Int) - 1).toNat = history.length - 1 := by
      omega
    rw [h0, List.getD_eq_getElem?_getD,
      List.getElem?_reverse (by omega),
      show history.length - 1 - (history.length - 1) = 0 by omega,
      ← List.head?_eq_getElem?, List.head?_eq_head hne]
    rfl
  · intro hout
    unfold get_entry
    simp only [hE, Bool.false_eq_true, if_false]
    rw [if_pos (by simpa [List.length_reverse] using hout)]
    rw [List.length_reverse]

/-- Witness for C6 on the two-entry log a then b: index 1 fetches b
(newest), index 2 fetches a (oldest), index 3 is a reported bad index
with range top 2, and the empty log reports the empty-history failure. -/
theorem c6_get_index_witness :
    get_entry [⟨"a", 1, 1⟩, ⟨"b", 2, 1⟩] 1 = .found ⟨"b", 2, 1⟩ ∧
    get_entry [⟨"a", 1, 1⟩, ⟨"b", 2, 1⟩] 2 = .found ⟨"a", 1, 1⟩ ∧
    get_entry [⟨"a", 1, 1⟩, ⟨"b", 2, 1⟩] 3 = .errBadIndex 2 ∧
    get_entry [] 1 = .errNoHistory := by
  have h := c6_get_index [⟨"a", 1, 1⟩, ⟨"b", 2, 1⟩] 3 (by decide)
  refine ⟨h.1.trans (by decide), ?_, h.2.2.1 (by decide), h.2.2.2 1⟩
  have h2 := h.2.1
  simpa using h2.trans (by decide)

/-! ### Helper lemmas for the add path -/

theorem add_entry_cases (msz maxE : Nat) (now : Int) (history : List Entry)
    (x : String) :
    (add_entry msz maxE now history x = ⟨history, false, false⟩ ∧
      (x.utf8ByteSize > msz ∨ lastIsDup history x = true)) ∨
    (x.utf8ByteSize ≤ msz ∧ lastIsDup history x = false ∧
      add_entry msz maxE now history x =
        ⟨if (history ++ [mkEntry now x]).length > maxE
          then pyTakeLast maxE (history ++ [mkEntry now x])
          else history ++ [mkEntry now x], true, true⟩) := by
  unfold add_entry
  split
  · next h => exact Or.inl ⟨rfl, Or.inl h⟩
  · next h =>
      split
      · next h2 => exact Or.inl ⟨rfl, Or.inr (by simpa using h2)⟩
      · next h2 =>
          exact Or.inr ⟨Nat.le_of_not_lt h, by simpa using h2, rfl⟩

theorem chain'_pyTakeLast {α : Type} {R : α → α → Prop} {m : Nat}
    {l : List α} (h : List.Chain' R l) : List.Chain' R (pyTakeLast m l) := by
  unfold pyTakeLast
  split
  · exact h
  · exact h.drop _

theorem noAdjDup_iff_chain' (l : List Entry) :
    noAdjDup l = true ↔
      List.Chain' (fun a b => a.content ≠ b.content) l := by
  induction l with
  | nil => simp [noAdjDup]
  | cons a t ih =>
    cases t with
    | nil => simp [noAdjDup]
    | cons b t2 =>
      rw [List.chain'_cons]
      simp only [noAdjDup, Bool.and_eq_true, bne_iff_ne]
      rw [ih]

theorem add_entry_of_lastIsDup (msz maxE : Nat) (now : Int)
    (history : List Entry) (x : String) (hsz : x.utf8ByteSize ≤ msz)
    (hdup : lastIsDup history x = true) :
    add_entry msz maxE now history x = ⟨history, false, false⟩ := by
  unfold add_entry
  rw [if_neg (by omega)]
  simp [hdup]

theorem getLast?_add_entry_accepted (msz maxE : Nat) (now : Int)
    (history : List Entry) (x : String)
    (hacc : (add_entry msz maxE now history x).accepted = true) :
    (add_entry msz maxE now history x).history.getLast? =
      some (mkEntry now x) := by
  rcases add_entry_cases msz maxE now history x with ⟨heq, _⟩ | ⟨_, _, heq⟩
  · rw [heq] at hacc
    simp at hacc
  · rw [heq]
    dsimp only
    split
    · rw [getLast?_pyTakeLast _ _ (by simp)]
      exact List.getLast?_concat history
    · exact List.getLast?_concat history

/-- Claim C1: when the last entry of the log already holds x, add_entry x
returns false, writes nothing, and leaves the log unchanged; consequently
after a first accepted add_entry x the immediate repeat is rejected and,
below capacity, the two calls together grow the log by exactly one; and
add_entry preserves freedom from adjacent duplicates. -/
theorem c1_dedup (msz maxE : Nat) (now now2 : Int) (history : List Entry)
    (x : String) :
    (lastIsDup history x = true →
      (add_entry msz maxE now history x).accepted = false ∧
      (add_entry msz maxE now history x).saved = false ∧
      (add_entry msz maxE now history x).history = history) ∧
    ((add_entry msz maxE now history x).accepted = true →
      (add_entry msz maxE now2
          (add_entry msz maxE now history x).history x).accepted = false ∧
      (add_entry msz maxE now2
          (add_entry msz maxE now history x).history x).history =
        (add_entry msz maxE now history x).history) ∧
    ((add_entry msz maxE now history x).accepted = true →
      history.length < maxE →
      (add_entry msz maxE now history x).history.length =
        history.length + 1) ∧
    (noAdjDup history = true →
      noAdjDup (add_entry msz maxE now history x).history = true) := by
  refine ⟨?_, ?_, ?_, ?_⟩
  · intro hdup
    unfold add_entry
    split
    · exact ⟨rfl, rfl, rfl⟩
    · simp [hdup]
  · intro hacc
    rcases add_entry_cases msz maxE now history x with ⟨heq, _⟩ | ⟨hsz, _, _⟩
    · rw [heq] at hacc
      simp at hacc
    · have hlast := getLast?_add_entry_accepted msz maxE now history x hacc
      have hdup2 : lastIsDup (add_entry msz maxE now history x).history x
          = true := by
        unfold lastIsDup
        rw [hlast]
        simp [mkEntry]
      have hdd := add_entry_of_lastIsDup msz maxE now2
        (add_entry msz maxE now history x).history x hsz hdup2
      rw [hdd]
      exact ⟨rfl, rfl⟩
  · intro hacc hlen
    rcases add_entry_cases msz maxE now history x with ⟨heq, _⟩ | ⟨_, _, heq⟩
    · rw [heq] at hacc
      simp at hacc
    · rw [heq]
      dsimp only
      rw [if_neg (by simp; omega)]
      simp
  · intro hnd
    rcases add_entry_cases msz maxE now history x with ⟨heq, _⟩ | ⟨_, hnodup, heq⟩
    · rw [heq]
      exact hnd
    · rw [heq]
      dsimp only
      rw [noAdjDup_iff_chain'] at hnd ⊢
      have hchain : List.Chain' (fun a b => a.content ≠ b.content)
          (history ++ [mkEntry now x]) := by
        rw [List.chain'_append]
        refine ⟨hnd, List.chain'_singleton _, ?_⟩
        intro p hp q hq
        simp only [List.head?_cons, Option.mem_def, Option.some.injEq] at hq
        subst hq
        have := lastIsDup_eq_false_iff.mp hnodup p hp
        simpa [mkEntry] using this
      split
      · exact chain'_pyTakeLast hchain
      · exact hchain

/-- Witness for C1: on the log holding a single entry a, adding a again
is a rejected no-op; adding b succeeds, its immediate repeat is rejected,
the log grew to length two, and no adjacent duplicates appear. -/
theorem c1_dedup_witness :
    ((add_entry 100 10 5 [⟨"a", 5, 1⟩] "a").accepted = false ∧
     (add_entry 100 10 5 [⟨"a", 5, 1⟩] "a").saved = false ∧
     (add_entry 100 10 5 [⟨"a", 5, 1⟩] "a").history = [⟨"a", 5, 1⟩]) ∧
    ((add_entry 100 10 6
        (add_entry 100 10 5 [⟨"a", 5, 1⟩] "b").history "b").accepted
          = false ∧
     (add_entry 100 10 6
        (add_entry 100 10 5 [⟨"a", 5, 1⟩] "b").history "b").history =
       (add_entry 100 10 5 [⟨"a", 5, 1⟩] "b").history) ∧
    (add_entry 100 10 5 [⟨"a", 5, 1⟩] "b").history.length = 2 ∧
    noAdjDup (add_entry 100 10 5 [⟨"a", 5, 1⟩] "b").history = true := by
  have h := c1_dedup 100 10 5 6 [⟨"a", 5, 1⟩] "a"
  have h2 := c1_dedup 100 10 5 6 [⟨"a", 5, 1⟩] "b"
  exact ⟨h.1 (by decide), h2.2.1 (by decide),
    by simpa using h2.2.2.1 (by decide) (by decide), h2.2.2.2 (by decide)⟩

/-! ### Persistence round trip -/

theorem jsonToEntry_entryToJson (e : Entry) :
    jsonToEntry (entryToJson e) = some e := rfl

/-- Claim C4: writing the log with save_data and parsing it back as
load_data does yields the same entries, with the same content, timestamp
and size, in the same order. -/
theorem c4_roundtrip (history : List Entry) :
    load_data (some (save_data history)) = some history := by
  simp only [load_data, save_data]
  induction history with
  | nil => rfl
  | cons e t ih =>
    simp only [List.map_cons, List.mapM_cons, jsonToEntry_entryToJson,
      Option.bind_eq_bind, Option.some_bind, ih]
    rfl

/-! ### The search scan loop -/

theorem searchGo_none (q : List Char) (l : List Entry) :
    ∀ cnt : Nat, searchGo q none cnt l = l.filter (matchesQuery q) := by
  induction l with
  | nil => intro cnt; rfl
  | cons e rest ih =>
    intro cnt
    unfold searchGo
    by_cases hm : matchesQuery q e
    · simp [hm, limitReached, List.filter_cons, ih]
    · simp [hm, List.filter_cons, ih]

theorem searchGo_zero (q : List Char) (l : List Entry) :
    ∀ cnt : Nat, searchGo q (some 0) cnt l = l.filter (matchesQuery q) := by
  induction l with
  | nil => intro cnt; rfl
  | cons e rest ih =>
    intro cnt
    unfold searchGo
    by_cases hm : matchesQuery q e
    · simp [hm, limitReached, List.filter_cons, ih]
    · simp [hm, List.filter_cons, ih]

theorem searchGo_pos (q : List Char) (l0 : Int) (hpos : 0 < l0)
    (rest : List Entry) :
    ∀ cnt : Nat, (cnt : Int) < l0 →
      searchGo q (some l0) cnt rest =
        (rest.filter (matchesQuery q)).take (l0.toNat - cnt) := by
  induction rest with
  | nil => intro cnt _; simp [searchGo]
  | cons e t ih =>
    intro cnt hcnt
    unfold searchGo
    by_cases hm : matchesQuery q e
    · simp only [hm, if_true]
      by_cases hl : limitReached (some l0) (cnt + 1) = true
      · have h1 : l0.toNat - cnt = 1 := by
          unfold limitReached at hl
          simp only [Bool.and_eq_true, bne_iff_ne, decide_eq_true_eq] at hl
          omega
        simp [hl, List.filter_cons, hm, h1]
      · have hlt : ((cnt + 1 : Nat) : Int) < l0 := by
          unfold limitReached at hl
          simp only [Bool.and_eq_true, bne_iff_ne, decide_eq_true_eq,
            not_and, not_le] at hl
          have : l0 ≠ 0 := by omega
          have := hl this
          push_cast
          push_cast at this
          omega
        rw [if_neg hl, ih (cnt + 1) hlt]
        rw [List.filter_cons_of_pos hm,
          show l0.toNat - cnt = (l0.toNat - (cnt + 1)) + 1 by omega,
          List.take_succ_cons]
    · rw [if_neg (by simpa using hm), ih cnt hcnt,
        List.filter_cons_of_neg (by simpa using hm)]

/-- Counterexample to claim C7 as stated: the claim quantifies over every
optional limit, but a limit of 0 is falsy in Python, so the stop
condition never fires and search returns every match instead of the zero
most recent matches. -/
theorem c7_counterexample :
    search [⟨"a", 0, 1⟩] "a" (some 0) = [⟨"a", 0, 1⟩] ∧
    ([⟨"a", 0, 1⟩] : List Entry) ≠ ([] : List Entry) := by
  constructor
  · rfl
  · decide

/-- Claim C7 amended: search matches the lowered query as a substring of
the lowered content, scanning newest-first; with a positive limit it
stops once limit matches are collected, so the result is the limit most
recent matches in newest-first order, while with no limit (or the falsy
limit 0) it returns all matches; on the log foo1, bar, foo2, baz, foo3
appended in order, search for foo with limit 2 returns foo3 then foo2. -/
theorem c7_search_amended (history : List Entry) (query : String)
    (l0 : Int) :
    (0 < l0 → search history query (some l0) =
      (history.reverse.filter
        (matchesQuery (lowerChars query))).take l0.toNat) ∧
    search history query none =
      history.reverse.filter (matchesQuery (lowerChars query)) ∧
    search history query (some 0) =
      history.reverse.filter (matchesQuery (lowerChars query)) ∧
    search [⟨"foo1", 1, 4⟩, ⟨"bar", 2, 3⟩, ⟨"foo2", 3, 4⟩, ⟨"baz", 4, 3⟩,
        ⟨"foo3", 5, 4⟩] "foo" (some 2) =
      [⟨"foo3", 5, 4⟩, ⟨"foo2", 3, 4⟩] := by
  refine ⟨?_, searchGo_none _ _ 0, searchGo_zero _ _ 0, by decide⟩
  intro hpos
  unfold search
  rw [searchGo_pos (lowerChars query) l0 hpos history.reverse 0
    (by simpa using hpos)]
  simp

/-- Witness for the amended C7: a log with contents a, ab, b searched for
a with limit 1 yields just the newest match ab. -/
theorem c7_search_amended_witness :
    search [⟨"a", 0, 1⟩, ⟨"ab", 1, 2⟩, ⟨"b", 2, 1⟩] "a" (some 1) =
      [⟨"ab", 1, 2⟩] := by
  have h := (c7_search_amended [⟨"a", 0, 1⟩, ⟨"ab", 1, 2⟩, ⟨"b", 2, 1⟩]
    "a" 1).1 (by decide)
  exact h.trans (by decide)

/-! ### Listing -/

theorem chain'_tsGE_head (l : List Entry) (h : List.Chain' tsGE l) :
    ∀ hd ∈ l.head?, ∀ e ∈ l, e.timestamp ≤ hd.timestamp := by
  intro hd hhd e he
  cases l with
  | nil => simp at hhd
  | cons a t =>
    simp only [List.head?_cons, Option.mem_def, Option.some.injEq] at hhd
    rcases List.mem_cons.mp he with heq | hmem
    · rw [heq, hhd]
    · have hp : List.Pairwise tsGE (a :: t) := List.chain'_iff_pairwise.mp h
      have hae := (List.pairwise_cons.mp hp).1 e hmem
      rw [← hhd]
      exact hae

/-- Counterexample to claim C5 as stated: first, a limit of 0 is falsy in
Python so no truncation happens (the result is not the empty first-0
prefix); second, the code only reverses the stored order and never sorts,
so on a log whose timestamps are out of order the first result does not
carry the maximal timestamp. -/
theorem c5_counterexample :
    list_entries 100 [⟨"b", 5, 1⟩, ⟨"a", 3, 1⟩] (some 0) none =
      [⟨"a", 3, 1⟩, ⟨"b", 5, 1⟩] ∧
    (list_entries 100 [⟨"b", 5, 1⟩, ⟨"a", 3, 1⟩] none none).head? =
      some ⟨"a", 3, 1⟩ ∧
    ⟨"b", 5, 1⟩ ∈ list_entries 100 [⟨"b", 5, 1⟩, ⟨"a", 3, 1⟩] none none ∧
    (3 : Int) < 5 := by
  refine ⟨rfl, rfl, ?_, by decide⟩
  decide

/-- Claim C5 amended: list_entries filters by age when within_days is
given and nonzero, reverses to newest-appended-first order, and
truncates to the first limit entries when limit is given and positive
(an absent or zero limit leaves the sequence whole); whenever the stored
timestamps are non-decreasing in storage order, the first result carries
a timestamp at least every other result's timestamp. -/
theorem c5_list_amended (now : Int) (history : List Entry)
    (limit days : Option Int) :
    ((limit = none ∨ limit = some 0) →
      list_entries now history limit days =
        (if truthyInt days then keepRecent now (days.getD 0) history
         else history).reverse) ∧
    (∀ l0 : Int, limit = some l0 → 0 < l0 →
      list_entries now history limit days =
        ((if truthyInt days then keepRecent now (days.getD 0) history
          else history).reverse).take l0.toNat) ∧
    (List.Chain' tsLE history →
      ∀ hd ∈ (list_entries now history limit days).head?,
        ∀ e ∈ list_entries now history limit days,
          e.timestamp ≤ hd.timestamp) := by
  refine ⟨?_, ?_, ?_⟩
  · rintro (rfl | rfl)
    · simp [list_entries, truthyInt]
    · simp [list_entries, truthyInt]
  · rintro l0 rfl hpos
    have hne : l0 ≠ 0 := by omega
    simp [list_entries, truthyInt, pySliceTo, hne, hpos.le]
  · intro hchain hd hhd e he
    have hfil : List.Chain' tsLE
        (if truthyInt days then keepRecent now (days.getD 0) history
         else history) := by
      split
      · exact hchain.sublist (List.filter_sublist _)
      · exact hchain
    have hB : List.Chain' tsGE
        ((if truthyInt days then keepRecent now (days.getD 0) history
          else history).reverse) := List.chain'_reverse.mpr hfil
    have hres : ∃ m,
        list_entries now history limit days =
          ((if truthyInt days then keepRecent now (days.getD 0) history
            else history).reverse).take m := by
      unfold list_entries
      dsimp only
      split
      · unfold pySliceTo
        split
        · exact ⟨_, rfl⟩
        · exact ⟨_, rfl⟩
      · exact ⟨_, (List.take_length _).symm⟩
    rcases hres with ⟨m, hm⟩
    rw [hm] at hhd he
    exact chain'_tsGE_head _ (hB.take m) hd hhd e he

/-- Witness for the amended C5: on the in-order log a then b, the full
list is b then a, limit 1 keeps only b, and the head b dominates the
timestamp of a. -/
theorem c5_list_amended_witness :
    list_entries 100 [⟨"a", 3, 1⟩, ⟨"b", 5, 1⟩] none none =
      [⟨"b", 5, 1⟩, ⟨"a", 3, 1⟩] ∧
    list_entries 100 [⟨"a", 3, 1⟩, ⟨"b", 5, 1⟩] (some 1) none =
      [⟨"b", 5, 1⟩] ∧
    (⟨"a", 3, 1⟩ : Entry).timestamp ≤ (⟨"b", 5, 1⟩ : Entry).timestamp := by
  have h := c5_list_amended 100 [⟨"a", 3, 1⟩, ⟨"b", 5, 1⟩] none none
  have h2 := c5_list_amended 100 [⟨"a", 3, 1⟩, ⟨"b", 5, 1⟩] (some 1) none
  refine ⟨(h.1 (Or.inl rfl)).trans (by decide),
    (h2.2.1 1 rfl (by decide)).trans (by decide), ?_⟩
  exact h.2.2
    (List.chain'_cons.mpr ⟨by norm_num [tsLE], List.chain'_singleton _⟩)
    ⟨"b", 5, 1⟩ (by decide) ⟨"a", 3, 1⟩ (by decide)

/-! ### Capacity eviction -/

theorem pyTakeLast_eq_reverse_take {α : Type} (m : Nat) (l : List α)
    (hm : m ≠ 0) : pyTakeLast m l = (l.reverse.take m).reverse := by
  unfold pyTakeLast
  rw [if_neg hm]
  have h1 : l.drop (l.length - m) =
      (l.reverse.take (l.length - (l.length - m))).reverse := by
    rw [← List.reverse_drop, List.reverse_reverse]
  rw [h1]
  congr 1
  rcases le_or_lt m l.length with h | h
  · congr 1
    omega
  · rw [List.take_of_length_le (by simp; omega),
      List.take_of_length_le (by simp; omega)]

theorem pyTakeLast_pyTakeLast_append {α : Type} (m : Nat) (a b : List α) :
    pyTakeLast m (pyTakeLast m a ++ b) = pyTakeLast m (a ++ b) := by
  by_cases hm : m = 0
  · subst hm
    simp [pyTakeLast]
  · rw [pyTakeLast_eq_reverse_take m a hm, pyTakeLast_eq_reverse_take m _ hm,
      pyTakeLast_eq_reverse_take m _ hm]
    congr 1
    rw [List.reverse_append, List.reverse_reverse, List.reverse_append]
    rw [List.take_append_eq_append_take, List.take_append_eq_append_take]
    congr 1
    rw [List.take_take]
    congr 1
    exact Nat.min_eq_left (Nat.sub_le _ _)

theorem addAll_eq (msz maxE : Nat) (now : Int) (xs : List String) :
    ∀ h : List Entry, 1 ≤ maxE → h.length ≤ maxE →
      (∀ s ∈ xs, s.utf8ByteSize ≤ msz) →
      List.Chain' (fun a b : String => a ≠ b) xs →
      (∀ e ∈ h.getLast?, ∀ s ∈ xs.head?, e.content ≠ s) →
      addAll msz maxE now h xs =
        pyTakeLast maxE (h ++ xs.map (mkEntry now)) := by
  induction xs with
  | nil =>
    intro h hm hlen _ _ _
    simp only [addAll, List.map_nil, List.append_nil]
    rw [pyTakeLast_of_le hlen]
  | cons x xs ih =>
    intro h hm hlen hsz hchain hlast
    have hszx : x.utf8ByteSize ≤ msz := hsz x (List.mem_cons_self x xs)
    have hdup : lastIsDup h x = false := by
      rw [lastIsDup_eq_false_iff]
      intro e he
      exact hlast e he x rfl
    rcases add_entry_cases msz maxE now h x with ⟨_, hbad⟩ | ⟨_, _, heq⟩
    · rcases hbad with hb | hb
      · omega
      · rw [hdup] at hb
        cases hb
    · simp only [addAll]
      rw [heq]
      dsimp only
      have hstep : (if (h ++ [mkEntry now x]).length > maxE
          then pyTakeLast maxE (h ++ [mkEntry now x])
          else h ++ [mkEntry now x]) =
            pyTakeLast maxE (h ++ [mkEntry now x]) := by
        split
        · rfl
        · next hng => rw [pyTakeLast_of_le (Nat.le_of_not_lt hng)]
      rw [hstep]
      have hlen' : (pyTakeLast maxE (h ++ [mkEntry now x])).length ≤ maxE := by
        rw [length_pyTakeLast _ _ (by omega)]
        omega
      have hlast' : (pyTakeLast maxE (h ++ [mkEntry now x])).getLast? =
          some (mkEntry now x) := by
        rw [getLast?_pyTakeLast _ _ (by simp), List.getLast?_concat]
      rw [ih (pyTakeLast maxE (h ++ [mkEntry now x])) hm hlen'
        (fun s hs => hsz s (List.mem_cons_of_mem _ hs))
        (List.chain'_cons'.mp hchain).2
        (by
          intro e he s hs
          rw [hlast'] at he
          simp only [Option.mem_def, Option.some.injEq] at he
          rw [← he]
          exact (List.chain'_cons'.mp hchain).1 s hs)]
      rw [pyTakeLast_pyTakeLast_append, List.append_assoc,
        List.singleton_append, ← List.map_cons]

/-- Claim C3: with a positive cap, add_entry keeps the log length within
max_entries; an accepted append drops entries from the front so that
exactly the newest max_entries survive; and appending N + k distinct
within-size entries to an empty store capped at N leaves exactly the
last N, whose oldest element is the (k+1)-th appended entry. -/
theorem c3_capacity (msz maxE : Nat) (now : Int) (history : List Entry)
    (x : String) (N k : Nat) (xs : List String) :
    (1 ≤ maxE → history.length ≤ maxE →
      (add_entry msz maxE now history x).history.length ≤ maxE) ∧
    (1 ≤ maxE → history.length ≤ maxE →
      (add_entry msz maxE now history x).accepted = true →
      (add_entry msz maxE now history x).history =
        (history ++ [mkEntry now x]).drop (history.length + 1 - maxE)) ∧
    (1 ≤ N → xs.length = N + k → xs.Pairwise (· ≠ ·) →
      (∀ s ∈ xs, s.utf8ByteSize ≤ msz) →
      addAll msz N now [] xs = (xs.map (mkEntry now)).drop k ∧
      (addAll msz N now [] xs).length = N ∧
      (addAll msz N now [] xs).head? = (xs[k]?).map (mkEntry now)) := by
  refine ⟨?_, ?_, ?_⟩
  · intro hm hlen
    rcases add_entry_cases msz maxE now history x with ⟨heq, _⟩ | ⟨_, _, heq⟩
    · rw [heq]
      exact hlen
    · rw [heq]
      dsimp only
      split
      · rw [length_pyTakeLast _ _ (by omega)]
        omega
      · next hng => simpa using Nat.le_of_not_lt hng
  · intro hm hlen hacc
    rcases add_entry_cases msz maxE now history x with ⟨heq, _⟩ | ⟨_, _, heq⟩
    · rw [heq] at hacc
      simp at hacc
    · rw [heq]
      dsimp only
      split
      · next hover =>
          unfold pyTakeLast
          rw [if_neg (by omega)]
          congr 1
          simp
      · next hng =>
          have h0 : history.length + 1 - maxE = 0 := by
            simp only [List.length_append, List.length_cons,
              List.length_nil, gt_iff_lt, not_lt] at hng
            omega
          rw [h0, List.drop_zero]
  · intro hN hlenxs hpw hsz
    have h1 : addAll msz N now [] xs = (xs.map (mkEntry now)).drop k := by
      rw [addAll_eq msz N now xs [] hN (by simp) hsz hpw.chain'
        (by intro e he; simp at he)]
      simp only [List.nil_append]
      unfold pyTakeLast
      rw [if_neg (by omega)]
      congr 1
      simp [hlenxs]
    refine ⟨h1, ?_, ?_⟩
    · rw [h1, List.length_drop, List.length_map, hlenxs]
      omega
    · rw [h1, List.head?_drop, List.getElem?_map]

/-- Witness for C3: a two-entry store at cap 2 accepts c and evicts a;
three distinct appends into an empty store capped at 2 leave b then c,
of length 2 and oldest element b, the second appended entry. -/
theorem c3_capacity_witness :
    (add_entry 100 2 7 [⟨"a", 1, 1⟩, ⟨"b", 2, 1⟩] "c").history.length ≤ 2 ∧
    (add_entry 100 2 7 [⟨"a", 1, 1⟩, ⟨"b", 2, 1⟩] "c").history =
      [⟨"b", 2, 1⟩, mkEntry 7 "c"] ∧
    addAll 100 2 7 [] ["a", "b", "c"] = [mkEntry 7 "b", mkEntry 7 "c"] ∧
    (addAll 100 2 7 [] ["a", "b", "c"]).length = 2 ∧
    (addAll 100 2 7 [] ["a", "b", "c"]).head? = some (mkEntry 7 "b") := by
  have h := c3_capacity 100 2 7 [⟨"a", 1, 1⟩, ⟨"b", 2, 1⟩] "c" 2 1
    ["a", "b", "c"]
  have h3 := h.2.2 (by decide) (by decide) (by decide) (by decide)
  refine ⟨h.1 (by decide) (by decide), ?_, ?_, h3.2.1, ?_⟩
  · rw [h.2.1 (by decide) (by decide) (by decide)]
    decide
  · rw [h3.1]
    decide
  · rw [h3.2.2]
    decide

end Clip
